import Mathlib

/-!
Verification development for the anchorman activity-capture and
task-derivation pipeline.  The Go source is shallowly embedded: pure
functions become Lean functions, the SQLite store becomes explicit record
states threaded through the operations, fallible calls return `Option`,
and `float64` parsing/arithmetic is modelled over exact rationals.
-/

namespace Anchorman

/-! ## Scan-Path Gate (internal/config/config.go, IsPathTracked)

Canonical absolute paths are modelled as their lists of components
(the path `/a/b` is `["a", "b"]`).  `relPathString` embeds Go's
`filepath.Rel` restricted to cleaned absolute inputs: drop the common
component prefix, emit one `..` per remaining base component followed by
the remaining target components, or `.` when nothing remains. -/

/-- Drops the common leading components of two component lists, returning
the two remainders (the segment comparison loop of `filepath.Rel`). -/
def dropCommon : List String → List String → List String × List String
  | a :: as, b :: bs => if a = b then dropCommon as bs else (a :: as, b :: bs)
  | as, bs => (as, bs)

/-- Embeds `filepath.Rel base targ` for canonical absolute paths, producing
the relative path as a string. -/
def relPathString (root p : List String) : String :=
  let rest := dropCommon root p
  let comps := List.replicate rest.1.length ("..") ++ rest.2
  if comps = [] then (".") else String.intercalate ("/") comps

/-- The per-root test of `IsPathTracked`: Go returns true when
`len(rel) > 0 && rel[0] != '.'`, or when `rel == "."`. -/
def trackedUnderRoot (root p : List String) : Bool :=
  let rel := relPathString root p
  (match rel.toList with
   | [] => false
   | c :: _ => if c = '.' then false else true)
  || rel = (".")

/-- Embeds `Config.IsPathTracked`: the path is tracked when some configured
scan path accepts it. -/
def IsPathTracked (scanPaths : List (List String)) (p : List String) : Bool :=
  scanPaths.any (fun root => trackedUnderRoot root p)

/-- The specified gate predicate: a path is tracked iff it equals a
configured root or is a path-hierarchy descendant of one.  Stated from the
spec for comparison with the embedded code. -/
def isDescendantOrEqual (root p : List String) : Bool :=
  root.isPrefixOf p

/-- Claim C3: the four documented gate cases for roots `/a/b` behave as the
spec states, but the claimed equivalence with descendant-or-equal fails:
the descendant `/a/b/.c` (first relative segment starting with a dot) is
reported untracked because the code tests the first byte of the relative
path against a dot instead of testing for a parent-traversal marker. -/
theorem isPathTracked_dotfile_divergence :
    IsPathTracked [["a", "b"]] ["a", "b"] = true ∧
    IsPathTracked [["a", "b"]] ["a", "b", "c"] = true ∧
    IsPathTracked [["a", "b"]] ["a", "bc"] = false ∧
    IsPathTracked [["a", "b"]] ["x"] = false ∧
    isDescendantOrEqual ["a", "b"] ["a", "b", ".c"] = true ∧
    IsPathTracked [["a", "b"]] ["a", "b", ".c"] = false := by
  decide

/-! ## Summarization-response parser (internal/agent/agent.go)

`parseResponse` splits the agent output into lines, trims them, strips a
leading bullet marker, drops short lines, extracts an optional leading
`[X.Xh]` token and rounds the estimate to the nearest half hour with a
floor of half an hour.  Go `float64` values are modelled as exact
rationals; for the decimal literals the parser accepts, the rounding
results coincide with the Go computation. -/

/-- A parsed task line: description plus estimated hours. -/
structure TaskResult where
  description : String
  estimatedHours : ℚ
  deriving DecidableEq

/-- The ASCII white-space set trimmed by Go `strings.TrimSpace`
(tab, newline, vertical tab, form feed, carriage return, space). -/
def isGoSpace (c : Char) : Bool :=
  c = ' ' || c = '\t' || c = '\n' || c = '\r' ||
    c = Char.ofNat 11 || c = Char.ofNat 12

/-- Trims leading and trailing white space from a character list
(`strings.TrimSpace` on ASCII text). -/
def trimChars (l : List Char) : List Char :=
  ((l.dropWhile isGoSpace).reverse.dropWhile isGoSpace).reverse

/-- The RE2 character class matched by `\s` (tab, newline, form feed,
carriage return, space). -/
def isRegexSpace (c : Char) : Bool :=
  c = ' ' || c = '\t' || c = '\n' || c = '\r' || c = Char.ofNat 12

/-- Go `len` of a string: the number of UTF-8 bytes. -/
def byteLen (l : List Char) : Nat :=
  (l.map Char.utf8Size).sum

/-- Strips a leading bullet marker as in `parseResponse`: remove a leading
dash-space or star-space when present. -/
def stripBullet (l : List Char) : List Char :=
  if [ '-', ' ' ].isPrefixOf l then l.drop 2
  else if [ '*', ' ' ].isPrefixOf l then l.drop 2
  else l

/-- Reads the number digits of the time token once the opening bracket has
been consumed: the tail of the regex `(\d+\.?\d*)h\]\s*`.  Returns the
captured number characters and the rest of the line after the token and
its trailing white space. -/
def timeTokenTail (rest : List Char) : Option (List Char × List Char) :=
  let ds := rest.takeWhile Char.isDigit
  let r1 := rest.dropWhile Char.isDigit
  if ds = [] then none
  else
    match r1 with
    | '.' :: r2 =>
        let ds2 := r2.takeWhile Char.isDigit
        (match r2.dropWhile Char.isDigit with
         | 'h' :: ']' :: r4 => some (ds ++ '.' :: ds2, r4.dropWhile isRegexSpace)
         | _ => none)
    | 'h' :: ']' :: r4 => some (ds, r4.dropWhile isRegexSpace)
    | _ => none

/-- Embeds the anchored regex match `^\[(\d+\.?\d*)h\]\s*`: on success,
returns the captured number and the remainder of the line with the whole
match removed.  On this pattern the greedy left-to-right scan is exact,
since digits, the dot and the hour marker are disjoint characters. -/
def timeMatch : List Char → Option (List Char × List Char)
  | '[' :: rest => timeTokenTail rest
  | _ => none

/-- Folds decimal digit characters into a natural number. -/
def digitsToNat (l : List Char) : Nat :=
  l.foldl (fun a c => 10 * a + (c.toNat - 48)) 0

/-- The exact-rational model of `strconv.ParseFloat` on the strings the
time pattern can capture: digits, optionally a dot and further digits. -/
def parseDecimal (num : List Char) : ℚ :=
  let ip := num.takeWhile (fun c => if c = '.' then false else true)
  match num.dropWhile (fun c => if c = '.' then false else true) with
  | '.' :: frac => (digitsToNat ip : ℚ) + (digitsToNat frac : ℚ) / (10 ^ frac.length : ℚ)
  | _ => (digitsToNat ip : ℚ)

/-- The exact-rational model of Go `math.Round`: round to the nearest
integer, halves away from zero. -/
def mathRound (x : ℚ) : ℚ :=
  if 0 ≤ x then ((x + 1/2).floor : ℚ) else -(((-x) + 1/2).floor : ℚ)

/-- The floor used by `mathRound` agrees with the Mathlib floor, letting
`norm_num` evaluate it. -/
theorem ratFloor_eq_floor (q : ℚ) : Rat.floor q = ⌊q⌋ := rfl

/-- Embeds `roundToHalfHour`: values below half an hour are raised to half
an hour, everything else is rounded to the nearest half hour. -/
def roundToHalfHour (hours : ℚ) : ℚ :=
  if hours < 1/2 then 1/2 else mathRound (hours * 2) / 2

/-- Splits a character list at newline characters, the single-separator
case of `strings.Split`. -/
def splitNL : List Char → List (List Char)
  | [] => [[]]
  | c :: rest =>
    match splitNL rest with
    | [] => [[c]]
    | h :: t => if c = '\n' then [] :: h :: t else (c :: h) :: t

/-- Processes one line of the agent response, returning the task parsed
from it, if any (the loop body of `parseResponse`). -/
def parseLine (raw : List Char) : Option TaskResult :=
  let l0 := trimChars raw
  if l0 = [] then none
  else
    let l1 := stripBullet l0
    if byteLen l1 < 5 then none
    else
      match timeMatch l1 with
      | some nr =>
          let desc := trimChars nr.2
          if desc = [] then none
          else some ⟨String.mk desc, roundToHalfHour (parseDecimal nr.1)⟩
      | none => some ⟨String.mk l1, 1/2⟩

/-- Embeds `parseResponse`: split on newlines and collect the tasks parsed
from the individual lines. -/
def parseResponse (response : String) : List TaskResult :=
  (splitNL response.toList).filterMap parseLine

/-- Claim C6: the effort extraction maps bracketed raw estimates 0.2 and
0.74 to half an hour, 1.26 to one and a half hours, and a line without a
bracketed token to the default half hour. -/
theorem parseResponse_effort_rounding :
    parseResponse ("- [0.2h] Fixed the login flow") =
      [⟨("Fixed the login flow"), 1/2⟩] ∧
    parseResponse ("- [0.74h] Updated the billing page") =
      [⟨("Updated the billing page"), 1/2⟩] ∧
    parseResponse ("- [1.26h] Implemented the export feature") =
      [⟨("Implemented the export feature"), 3/2⟩] ∧
    parseResponse ("- Reviewed deployment scripts") =
      [⟨("Reviewed deployment scripts"), 1/2⟩] ∧
    roundToHalfHour (2/10) = 1/2 ∧
    roundToHalfHour (74/100) = 1/2 ∧
    roundToHalfHour (126/100) = 3/2 := by
  refine ⟨?_, ?_, ?_, ?_, ?_, ?_, ?_⟩ <;>
    simp +decide [parseResponse, parseLine, List.filterMap_cons, splitNL, trimChars,
      stripBullet, byteLen, timeMatch, timeTokenTail, isGoSpace, isRegexSpace,
      parseDecimal, digitsToNat, roundToHalfHour, mathRound, String.toList] <;>
    norm_num [ratFloor_eq_floor]

/-- The decimal values captured by the time pattern are nonnegative. -/
theorem parseDecimal_nonneg (num : List Char) : 0 ≤ parseDecimal num := by
  simp only [parseDecimal]
  split
  · positivity
  · positivity

/-! ### Float64 range awareness

The pure-rational model above is adequate for the concrete estimates of
the spec; the invariant over ALL inputs however depends on the float64
range: `strconv.ParseFloat` rejects decimals beyond the largest finite
float64 with `ErrRange` (the parser then keeps the default half hour),
while a successfully parsed estimate in the upper half of the range makes
`hours * 2` overflow to `+Inf` inside `roundToHalfHour` (doubling a
finite float64 is exact exactly up to the largest finite value, and
`math.Round` and the final halving preserve `+Inf`).  The refined model
keeps finite float64 values idealized as exact rationals but models the
overflow boundary, which is what the half-unit invariant is sensitive
to. -/

/-- A float64 estimate value: finite (idealized as an exact rational) or
positive infinity. -/
inductive GoFloat where
  | finite (q : ℚ)
  | inf
  deriving DecidableEq

/-- The largest finite float64, `math.MaxFloat64 = (2^53 - 1) * 2^971`. -/
def maxFloat64 : ℚ := (2 ^ 53 - 1) * 2 ^ 971

/-- Range-aware model of `strconv.ParseFloat` on the captured number:
decimals beyond the largest finite float64 fail with `ErrRange` (`none`);
in-range values are idealized as their exact decimal value. -/
def parseFloatF (num : List Char) : Option ℚ :=
  let q := parseDecimal num
  if maxFloat64 < q then none else some q

/-- Range-aware model of `roundToHalfHour`: the product `hours * 2`
overflows to `+Inf` beyond the largest finite float64 (`math.Round` and
the division by two keep `+Inf`); otherwise the computation is the exact
one. -/
def roundToHalfHourF (hours : ℚ) : GoFloat :=
  if hours < 1/2 then GoFloat.finite (1/2)
  else if maxFloat64 < hours * 2 then GoFloat.inf
  else GoFloat.finite (mathRound (hours * 2) / 2)

/-- A parsed task line in the range-aware model. -/
structure TaskResultF where
  description : String
  estimatedHours : GoFloat
  deriving DecidableEq

/-- The line parser in the range-aware model: identical control flow to
`parseLine`, with the `ParseFloat` error path (the estimate stays at the
default half hour) and the doubling overflow made explicit. -/
def parseLineF (raw : List Char) : Option TaskResultF :=
  let l0 := trimChars raw
  if l0 = [] then none
  else
    let l1 := stripBullet l0
    if byteLen l1 < 5 then none
    else
      match timeMatch l1 with
      | some nr =>
          let desc := trimChars nr.2
          if desc = [] then none
          else
            some ⟨String.mk desc,
              match parseFloatF nr.1 with
              | some h0 => roundToHalfHourF h0
              | none => GoFloat.finite (1/2)⟩
      | none => some ⟨String.mk l1, GoFloat.finite (1/2)⟩

/-- `parseResponse` in the range-aware model. -/
def parseResponseF (response : String) : List TaskResultF :=
  (splitNL response.toList).filterMap parseLineF

/-- A 308-digit estimate (9 followed by 307 zeros): within the float64
range for `ParseFloat`, but doubling it overflows. -/
def overflowDigits : String := "90000000000000000000000000000000000000000000000000000000000000000000000000000000000000000000000000000000000000000000000000000000000000000000000000000000000000000000000000000000000000000000000000000000000000000000000000000000000000000000000000000000000000000000000000000000000000000000000000000000000000000000"

/-- A response line carrying the overflowing estimate. -/
def overflowLine : String := "[90000000000000000000000000000000000000000000000000000000000000000000000000000000000000000000000000000000000000000000000000000000000000000000000000000000000000000000000000000000000000000000000000000000000000000000000000000000000000000000000000000000000000000000000000000000000000000000000000000000000000000000h] overflow estimate"

set_option maxRecDepth 16000

/-- Counterexample to C9 as stated: the response line whose bracketed
estimate is 9 followed by 307 zeros parses successfully and is emitted
with estimated hours `+Inf` — not a finite multiple of half an hour. -/
theorem parseResponse_float_overflow_inf :
    parseResponseF overflowLine = [⟨("overflow estimate"), GoFloat.inf⟩] := by
  have hd : digitsToNat overflowDigits.toList = 9 * 10 ^ 307 := by decide
  have hnodot : overflowDigits.toList.dropWhile
      (fun c => if c = '.' then false else true) = [] := by decide
  have hip : overflowDigits.toList.takeWhile
      (fun c => if c = '.' then false else true) = overflowDigits.toList := by decide
  have hq : parseDecimal overflowDigits.toList = ((9 * 10 ^ 307 : ℕ) : ℚ) := by
    simp only [parseDecimal, hnodot, hip, hd]
  have hpf : parseFloatF overflowDigits.toList = some ((9 * 10 ^ 307 : ℕ) : ℚ) := by
    simp only [parseFloatF, hq]
    rw [if_neg]
    rw [not_lt]
    push_cast
    norm_num [maxFloat64]
  have hr : roundToHalfHourF ((9 * 10 ^ 307 : ℕ) : ℚ) = GoFloat.inf := by
    unfold roundToHalfHourF
    rw [if_neg (by push_cast; norm_num), if_pos (by push_cast; norm_num [maxFloat64])]
  have s1 : splitNL overflowLine.toList = [overflowLine.toList] := by decide
  have e1 : trimChars overflowLine.toList = overflowLine.toList := by decide
  have n1 : ¬ (overflowLine.toList = ([] : List Char)) := by decide
  have e2 : stripBullet overflowLine.toList = overflowLine.toList := by decide
  have n3 : ¬ (byteLen overflowLine.toList < 5) := by decide
  have e4 : timeMatch overflowLine.toList =
      some (overflowDigits.toList, ("overflow estimate").toList) := by decide
  have e5 : trimChars (("overflow estimate").toList) =
      ("overflow estimate").toList := by decide
  have n5 : ¬ ((("overflow estimate").toList) = ([] : List Char)) := by decide
  have e6 : String.mk ((("overflow estimate").toList)) = ("overflow estimate") := by
    decide
  simp only [parseResponseF, s1, List.filterMap_cons, List.filterMap_nil, parseLineF,
    e1, e2, e4, e5, e6, hpf, hr, n1, n3, n5, if_neg, if_false, ite_false]

/-- Rounding the doubled estimate yields a positive integer number of
half hours. -/
theorem mathRound_double_half (q : ℚ) (h : 1/2 ≤ q) :
    ∃ k : ℕ, 1 ≤ k ∧ mathRound (q * 2) / 2 = (k : ℚ) / 2 := by
  unfold mathRound
  rw [if_pos (by linarith : (0:ℚ) ≤ q * 2), ratFloor_eq_floor]
  have h1 : (1 : ℤ) ≤ ⌊q * 2 + 1/2⌋ := Int.le_floor.mpr (by push_cast; linarith)
  refine ⟨(⌊q * 2 + 1/2⌋).toNat, by omega, ?_⟩
  have h4 : ((⌊q * 2 + 1/2⌋.toNat : ℤ) : ℚ) = ((⌊q * 2 + 1/2⌋ : ℤ) : ℚ) := by
    rw [Int.toNat_of_nonneg (by omega)]
  push_cast at h4 ⊢
  rw [h4]

/-- Every task emitted by the range-aware line parser has a non-empty
description and an estimate that is `+Inf` or a positive integer number
of half hours. -/
theorem parseLineF_wellformed (raw : List Char) (t : TaskResultF)
    (h : parseLineF raw = some t) :
    t.description ≠ ("") ∧
      (t.estimatedHours = GoFloat.inf ∨
        ∃ k : ℕ, 1 ≤ k ∧ t.estimatedHours = GoFloat.finite ((k : ℚ) / 2)) := by
  simp only [parseLineF] at h
  split at h
  · exact absurd h (by simp)
  · split at h
    · exact absurd h (by simp)
    · rename_i hlen
      split at h
      · rename_i nr heq
        split at h
        · exact absurd h (by simp)
        · rename_i hdesc
          obtain rfl : (⟨String.mk (trimChars nr.2),
              match parseFloatF nr.1 with
              | some h0 => roundToHalfHourF h0
              | none => GoFloat.finite (1/2)⟩ : TaskResultF) = t :=
            Option.some.inj h
          refine ⟨?_, ?_⟩
          · intro hcon
            exact hdesc (by simpa using congrArg String.data hcon)
          · rcases hpf : parseFloatF nr.1 with _ | h0
            · right
              exact ⟨1, le_refl 1, by simp [hpf]⟩
            · have h0eq : h0 = parseDecimal nr.1 := by
                simp only [parseFloatF] at hpf
                split at hpf
                · exact absurd hpf (by simp)
                · exact (Option.some.inj hpf).symm
              simp only [hpf]
              show roundToHalfHourF h0 = GoFloat.inf ∨ _
              unfold roundToHalfHourF
              split
              · exact Or.inr ⟨1, le_refl 1, rfl⟩
              · split
                · exact Or.inl rfl
                · right
                  have hge : 1/2 ≤ h0 := le_of_not_lt (by assumption)
                  obtain ⟨k, hk1, hk2⟩ := mathRound_double_half h0 hge
                  exact ⟨k, hk1, by rw [hk2]⟩
      · obtain rfl : (⟨String.mk (stripBullet (trimChars raw)),
            GoFloat.finite (1/2)⟩ : TaskResultF) = t := Option.some.inj h
        refine ⟨?_, Or.inr ⟨1, le_refl 1, by norm_num⟩⟩
        intro hcon
        have hnil : stripBullet (trimChars raw) = [] := by
          simpa using congrArg String.data hcon
        rw [hnil] at hlen
        exact hlen (by simp [byteLen])

/-- Claim C9 (amended): in the range-aware model, every task returned by
the response parser has a non-empty description, and its estimate is
either the float64 `+Inf` (the doubling of an in-range parsed estimate
overflowed) or a finite value that is at least half an hour and an exact
integer multiple of half an hour; a line holding only a bracketed
estimate token yields no task at all. -/
theorem parseResponseF_results_wellformed :
    (∀ (s : String), ∀ t ∈ parseResponseF s,
        t.description ≠ ("") ∧
          (t.estimatedHours = GoFloat.inf ∨
            ∃ k : ℕ, 1 ≤ k ∧ t.estimatedHours = GoFloat.finite ((k : ℚ) / 2))) ∧
    parseResponseF ("[1.0h]") = [] := by
  constructor
  · intro s t ht
    rw [parseResponseF, List.mem_filterMap] at ht
    obtain ⟨raw, _, hraw⟩ := ht
    exact parseLineF_wellformed raw t hraw
  · simp +decide [parseResponseF, parseLineF, List.filterMap_cons, splitNL, trimChars,
      stripBullet, byteLen, timeMatch, timeTokenTail, isGoSpace, isRegexSpace,
      String.toList]

/-- Witness for the amended C9: a concrete response line whose estimate
stays in range produces a task on which the invariant is checked through
the theorem. -/
theorem parseResponseF_results_wellformed_witness :
    (⟨("Built the exporter"), GoFloat.finite 2⟩ : TaskResultF) ∈
        parseResponseF ("- [2.0h] Built the exporter") ∧
      ((⟨("Built the exporter"), GoFloat.finite 2⟩ : TaskResultF).description ≠
          ("") ∧
        ((⟨("Built the exporter"), GoFloat.finite 2⟩ : TaskResultF).estimatedHours =
            GoFloat.inf ∨
          ∃ k : ℕ, 1 ≤ k ∧
            (⟨("Built the exporter"),
              GoFloat.finite 2⟩ : TaskResultF).estimatedHours =
              GoFloat.finite ((k : ℚ) / 2))) := by
  have he : parseResponseF ("- [2.0h] Built the exporter") =
      [⟨("Built the exporter"), GoFloat.finite 2⟩] := by
    simp +decide [parseResponseF, parseLineF, List.filterMap_cons, splitNL, trimChars,
      stripBullet, byteLen, timeMatch, timeTokenTail, isGoSpace, isRegexSpace,
      parseFloatF, parseDecimal, digitsToNat, roundToHalfHourF, mathRound,
      maxFloat64, String.toList]
    norm_num [ratFloor_eq_floor]
  have hm : (⟨("Built the exporter"), GoFloat.finite 2⟩ : TaskResultF) ∈
      parseResponseF ("- [2.0h] Built the exporter") := by
    rw [he]; exact List.mem_singleton.mpr rfl
  exact ⟨hm, parseResponseF_results_wellformed.1 _ _ hm⟩

/-! ## Persistence layer (internal/repository, internal/db)

The SQLite store is modelled as lists of decoded rows plus the
auto-increment counters.  JSON-encoded list columns (`files_changed`,
`source_commits`) are modelled as the decoded lists, keeping the
encode/decode boundary out of the business logic. -/

/-- A row of the `repos` table (with the project name joined in). -/
structure Repo where
  id : Nat
  path : String
  projectId : Option Nat
  projectName : String
  deriving DecidableEq

/-- A row of the `raw_commits` table. -/
structure RawCommit where
  id : Nat
  repoId : Nat
  hash : String
  message : String
  author : String
  branch : String
  filesChanged : List String
  committedAt : Int
  processed : Bool
  deriving DecidableEq

/-- A row of the `tasks` table. -/
structure Task where
  id : Nat
  projectId : Nat
  description : String
  sourceCommits : List Nat
  taskDate : Int
  estimatedHours : ℚ
  deriving DecidableEq

/-- Commit metadata extracted by the activity extractor (`git.CommitInfo`). -/
structure CommitInfo where
  hash : String
  message : String
  author : String
  branch : String
  filesChanged : List String
  committedAt : Int
  deriving DecidableEq

/-- The embedded relational store with its auto-increment counters. -/
structure Store where
  repos : List Repo
  commits : List RawCommit
  tasks : List Task
  nextRepoId : Nat
  nextCommitId : Nat
  nextTaskId : Nat
  deriving DecidableEq

/-- Embeds `RepoRepo.GetByPath`: look a repository up by its unique path. -/
def GetByPath (st : Store) (path : String) : Option Repo :=
  st.repos.find? (fun r => r.path == path)

/-- Embeds `RepoRepo.Create`: insert a repository row. -/
def createRepo (st : Store) (path : String) (projectId : Option Nat) : Repo × Store :=
  let r : Repo := ⟨st.nextRepoId, path, projectId, ("")⟩
  (r, { st with repos := st.repos ++ [r], nextRepoId := st.nextRepoId + 1 })

/-- Embeds `RepoRepo.GetOrCreate`: return the repository at this path, or
create it as an orphan when absent. -/
def GetOrCreate (st : Store) (path : String) : Repo × Store :=
  match GetByPath st path with
  | some r => (r, st)
  | none => createRepo st path none

/-- Embeds `CommitRepo.GetByRepoAndHash`: look a commit up by the unique
pair of repository id and hash. -/
def GetByRepoAndHash (st : Store) (repoId : Nat) (hash : String) : Option RawCommit :=
  st.commits.find? (fun c => c.repoId == repoId && c.hash == hash)

/-- Embeds `CommitRepo.Create`: insert an unprocessed commit row. -/
def createCommit (st : Store) (repoId : Nat) (info : CommitInfo) : Store :=
  { st with
    commits := st.commits ++
      [⟨st.nextCommitId, repoId, info.hash, info.message, info.author, info.branch,
        info.filesChanged, info.committedAt, false⟩],
    nextCommitId := st.nextCommitId + 1 }

/-- Number of stored commit rows for a (repository, hash) pair. -/
def countCommits (st : Store) (repoId : Nat) (hash : String) : Nat :=
  (st.commits.filter (fun c => c.repoId == repoId && c.hash == hash)).length

/-- The outcome reported by the ingestion pipeline. -/
structure IngestResult where
  skipped : Bool
  skipReason : String
  deriving DecidableEq

/-- Embeds the persistence portion of `git.Ingest` (after the gate and the
metadata extraction): get or create the repository, skip an already
recorded (repo, hash) pair as a duplicate, insert otherwise. -/
def Ingest (st : Store) (repoPath : String) (info : CommitInfo) : Store × IngestResult :=
  let rs := GetOrCreate st repoPath
  match GetByRepoAndHash rs.2 rs.1.id info.hash with
  | some _ => (rs.2, ⟨true, ("commit already recorded")⟩)
  | none => (createCommit rs.2 rs.1.id info, ⟨false, ("")⟩)

/-- The counters reported by `git.Import`. -/
structure ImportCounts where
  imported : Nat
  skipped : Nat
  updated : Nat
  tasksDeleted : Nat
  deriving DecidableEq

/-- Embeds `TaskRepo.DeleteTasksWithCommit`: scan all tasks, collect the
ids of those whose source-commit set contains the commit id, delete each
collected id, and report how many were collected. -/
def DeleteTasksWithCommit (st : Store) (commitId : Nat) : Nat × Store :=
  let toDelete := (st.tasks.filter (fun t => t.sourceCommits.contains commitId)).map
    (fun t => t.id)
  (toDelete.length,
   { st with tasks := st.tasks.filter (fun t => !(toDelete.contains t.id)) })

/-- Embeds `CommitRepo.UpdateAndMarkUnprocessed`: overwrite the mutable
fields of the commit rows with this id and reset the processed flag. -/
def UpdateAndMarkUnprocessed (st : Store) (commitId : Nat) (info : CommitInfo) : Store :=
  { st with commits := st.commits.map (fun c =>
      if c.id == commitId then
        { c with message := info.message, author := info.author, branch := info.branch,
                 filesChanged := info.filesChanged, committedAt := info.committedAt,
                 processed := false }
      else c) }

/-- The per-commit loop body of `git.Import`: insert a new commit, skip an
existing one, or (in force mode) run the invalidation protocol. -/
def importStep (force : Bool) (repoId : Nat) (st : Store) (counts : ImportCounts)
    (info : CommitInfo) : Store × ImportCounts :=
  match GetByRepoAndHash st repoId info.hash with
  | some existing =>
    if force then
      let ds := DeleteTasksWithCommit st existing.id
      let st2 := UpdateAndMarkUnprocessed ds.2 existing.id info
      (st2, { counts with tasksDeleted := counts.tasksDeleted + ds.1,
                          updated := counts.updated + 1 })
    else (st, { counts with skipped := counts.skipped + 1 })
  | none => (createCommit st repoId info, { counts with imported := counts.imported + 1 })

/-- The commit loop of `git.Import` over the extracted history range. -/
def importCommits (force : Bool) (repoId : Nat) (infos : List CommitInfo)
    (st : Store) (counts : ImportCounts) : Store × ImportCounts :=
  match infos with
  | [] => (st, counts)
  | info :: rest =>
    let sc := importStep force repoId st counts info
    importCommits force repoId rest sc.1 sc.2

/-- Claim C10: when the repository path is already stored, `GetOrCreate`
returns the stored record and leaves the store unchanged (so the project
assignment is untouched); a new orphan record is created only when the
path was absent. -/
theorem getOrCreate_frame (st : Store) (path : String) :
    (∀ r, GetByPath st path = some r → GetOrCreate st path = (r, st)) ∧
    (GetByPath st path = none →
      (GetOrCreate st path).1 = ⟨st.nextRepoId, path, none, ("")⟩ ∧
      (GetOrCreate st path).2.repos =
        st.repos ++ [⟨st.nextRepoId, path, none, ("")⟩] ∧
      (GetOrCreate st path).2.commits = st.commits ∧
      (GetOrCreate st path).2.tasks = st.tasks) := by
  constructor
  · intro r hr
    simp [GetOrCreate, hr]
  · intro hn
    simp [GetOrCreate, hn, createRepo]

/-- Witness for C10: a store already holding the path keeps its repo row,
project assignment included, and a store without it gains an orphan row. -/
theorem getOrCreate_frame_witness :
    (GetByPath ⟨[⟨4, ("/home/u/Projects/x"), some 7, ("web")⟩], [], [], 5, 1, 1⟩
        ("/home/u/Projects/x") = some ⟨4, ("/home/u/Projects/x"), some 7, ("web")⟩) ∧
    GetOrCreate ⟨[⟨4, ("/home/u/Projects/x"), some 7, ("web")⟩], [], [], 5, 1, 1⟩
        ("/home/u/Projects/x") =
      (⟨4, ("/home/u/Projects/x"), some 7, ("web")⟩,
       ⟨[⟨4, ("/home/u/Projects/x"), some 7, ("web")⟩], [], [], 5, 1, 1⟩) := by
  refine ⟨by decide, ?_⟩
  exact (getOrCreate_frame _ _).1 _ (by decide)

/-- Claim C1: a forced reimport of an already stored commit deletes every
task whose source-commit set contains that commit id (reporting the count
as tasks deleted), overwrites the stored commit's mutable fields with the
freshly extracted values, resets its processed flag (reporting one update),
and afterwards no stored task references the commit id. -/
theorem import_force_invalidation (st : Store) (repoId : Nat) (info : CommitInfo)
    (c : RawCommit) (h : GetByRepoAndHash st repoId info.hash = some c) :
    (importCommits true repoId [info] st ⟨0, 0, 0, 0⟩).2.tasksDeleted =
      (st.tasks.filter (fun t => t.sourceCommits.contains c.id)).length ∧
    (importCommits true repoId [info] st ⟨0, 0, 0, 0⟩).2.updated = 1 ∧
    (∀ c2 ∈ (importCommits true repoId [info] st ⟨0, 0, 0, 0⟩).1.commits,
      c2.id = c.id →
        c2.message = info.message ∧ c2.author = info.author ∧
        c2.branch = info.branch ∧ c2.filesChanged = info.filesChanged ∧
        c2.committedAt = info.committedAt ∧ c2.processed = false) ∧
    (∀ t ∈ (importCommits true repoId [info] st ⟨0, 0, 0, 0⟩).1.tasks,
      t.sourceCommits.contains c.id = false) := by
  have hrw : importCommits true repoId [info] st ⟨0, 0, 0, 0⟩ =
      (UpdateAndMarkUnprocessed (DeleteTasksWithCommit st c.id).2 c.id info,
       ⟨0, 0, 1, (DeleteTasksWithCommit st c.id).1⟩) := by
    simp [importCommits, importStep, h]
  rw [hrw]
  refine ⟨?_, rfl, ?_, ?_⟩
  · simp [DeleteTasksWithCommit]
  · intro c2 hc2 hid
    simp only [UpdateAndMarkUnprocessed, List.mem_map] at hc2
    obtain ⟨c0, _, rfl⟩ := hc2
    by_cases hcase : c0.id = c.id
    · simp [hcase]
    · rw [if_neg (by simpa using hcase)] at hid ⊢
      exact absurd hid hcase
  · intro t ht
    simp only [UpdateAndMarkUnprocessed, DeleteTasksWithCommit, List.mem_filter] at ht
    obtain ⟨htmem, hkeep⟩ := ht
    by_contra hcon
    have hcon2 : t.sourceCommits.contains c.id = true := by
      cases hco : t.sourceCommits.contains c.id
      · exact absurd hco hcon
      · rfl
    have hin : t.id ∈ (st.tasks.filter
        (fun t2 => t2.sourceCommits.contains c.id)).map (fun t2 => t2.id) :=
      List.mem_map_of_mem _ (List.mem_filter.mpr ⟨htmem, hcon2⟩)
    rw [Bool.not_eq_true', ← Bool.not_eq_true] at hkeep
    exact hkeep (by simpa using hin)

/-- The stored commit used by the concrete reimport scenario. -/
def sampleStoredCommit : RawCommit :=
  ⟨10, 1, ("abc"), ("old"), ("au"), ("main"), [("f.go")], 5, true⟩

/-- A store holding one repository, the stored commit, a task referencing
it and a task that does not. -/
def sampleStore : Store :=
  ⟨[⟨1, ("/r"), some 7, ("web")⟩], [sampleStoredCommit],
   [⟨100, 7, ("t1"), [10], 5, 1⟩, ⟨101, 7, ("t2"), [11], 5, 1⟩], 2, 11, 102⟩

/-- Freshly extracted metadata for the same hash, used to force-reimport. -/
def sampleInfo : CommitInfo :=
  ⟨("abc"), ("new"), ("au2"), ("dev"), [("g.go")], 9⟩

/-- Witness for C1: forcing the reimport of the stored commit 10 in a
store where task 100 references it and task 101 does not. -/
theorem import_force_invalidation_witness :
    (GetByRepoAndHash sampleStore 1 sampleInfo.hash = some sampleStoredCommit) ∧
    (importCommits true 1 [sampleInfo] sampleStore ⟨0, 0, 0, 0⟩).2.tasksDeleted =
      (sampleStore.tasks.filter
        (fun t => t.sourceCommits.contains sampleStoredCommit.id)).length := by
  refine ⟨by decide, ?_⟩
  exact (import_force_invalidation sampleStore 1 sampleInfo sampleStoredCommit
    (by decide)).1

/-- A missing (repo, hash) lookup means no stored row matches. -/
theorem countCommits_of_none {st : Store} {rid : Nat} {hash : String}
    (h : GetByRepoAndHash st rid hash = none) : countCommits st rid hash = 0 := by
  unfold countCommits
  rw [List.length_eq_zero]
  rw [List.filter_eq_nil_iff]
  intro c hc
  have := List.find?_eq_none.mp h c hc
  simpa using this

/-- A successful (repo, hash) lookup means at least one stored row matches. -/
theorem countCommits_of_some {st : Store} {rid : Nat} {hash : String} {c : RawCommit}
    (h : GetByRepoAndHash st rid hash = some c) : 1 ≤ countCommits st rid hash := by
  have hm := List.mem_of_find?_eq_some h
  have hp := List.find?_some h
  have hmem : c ∈ st.commits.filter (fun c2 => c2.repoId == rid && c2.hash == hash) :=
    List.mem_filter.mpr ⟨hm, hp⟩
  exact List.length_pos.mpr (List.ne_nil_of_mem hmem)

/-- Inserting a commit row adds exactly one row for its (repo, hash) pair. -/
theorem countCommits_createCommit (st : Store) (rid : Nat) (info : CommitInfo) :
    countCommits (createCommit st rid info) rid info.hash =
      countCommits st rid info.hash + 1 := by
  simp [countCommits, createCommit, List.filter_append]

/-- Claim C2: under the (repo, hash) uniqueness invariant, ingesting the
same commit twice in sequence for the same repository path leaves exactly
one stored row for the pair, and the second call reports a duplicate skip
rather than an error. -/
theorem ingest_idempotent (st : Store) (path : String) (info : CommitInfo)
    (h : countCommits st (GetOrCreate st path).1.id info.hash ≤ 1) :
    countCommits (Ingest (Ingest st path info).1 path info).1
        (GetOrCreate st path).1.id info.hash = 1 ∧
    (Ingest (Ingest st path info).1 path info).2.skipped = true ∧
    (Ingest (Ingest st path info).1 path info).2.skipReason =
      ("commit already recorded") := by
  have key : GetByPath (Ingest st path info).1 path = some (GetOrCreate st path).1 ∧
      (∃ y, GetByRepoAndHash (Ingest st path info).1
        (GetOrCreate st path).1.id info.hash = some y) ∧
      countCommits (Ingest st path info).1 (GetOrCreate st path).1.id info.hash = 1 := by
    rcases hp : GetByPath st path with _ | r0
    · -- the path is not yet registered: the first call creates the repo row
      have hgoc : GetOrCreate st path = createRepo st path none := by
        simp [GetOrCreate, hp]
      have hcc : (createRepo st path none).2.commits = st.commits := rfl
      have hcount0 : countCommits (createRepo st path none).2
          (createRepo st path none).1.id info.hash =
          countCommits st (createRepo st path none).1.id info.hash := by
        unfold countCommits
        rw [hcc]
      rcases hc : GetByRepoAndHash (createRepo st path none).2
          (createRepo st path none).1.id info.hash with _ | x
      · -- no stored row yet: the first call inserts
        have h1 : Ingest st path info =
            (createCommit (createRepo st path none).2
              (createRepo st path none).1.id info, ⟨false, ("")⟩) := by
          simp [Ingest, hgoc, hc]
        have hbp2 : GetByPath (Ingest st path info).1 path =
            some (createRepo st path none).1 := by
          rw [h1]
          simp only [GetByPath, createCommit, createRepo, List.find?_append]
          rw [show st.repos.find? (fun r => r.path == path) = none from hp]
          simp
        have hc2 : GetByRepoAndHash (Ingest st path info).1
            (createRepo st path none).1.id info.hash =
            some ⟨(createRepo st path none).2.nextCommitId,
              (createRepo st path none).1.id, info.hash, info.message, info.author,
              info.branch, info.filesChanged, info.committedAt, false⟩ := by
          rw [h1]
          simp only [GetByRepoAndHash, createCommit, List.find?_append]
          rw [show (createRepo st path none).2.commits.find?
              (fun c => c.repoId == (createRepo st path none).1.id &&
                c.hash == info.hash) = none from hc]
          simp
        refine ⟨by rw [hgoc]; exact hbp2, ⟨_, by rw [hgoc]; exact hc2⟩, ?_⟩
        rw [hgoc, h1]
        have hz := countCommits_of_none hc
        rw [countCommits_createCommit, hz]
      · -- a stored row already exists for the fresh pair: the first call skips
        have h1 : Ingest st path info = ((createRepo st path none).2,
            ⟨true, ("commit already recorded")⟩) := by
          simp [Ingest, hgoc, hc]
        have hbp2 : GetByPath (Ingest st path info).1 path =
            some (createRepo st path none).1 := by
          rw [h1]
          simp only [GetByPath, createRepo, List.find?_append]
          rw [show st.repos.find? (fun r => r.path == path) = none from hp]
          simp
        refine ⟨by rw [hgoc]; exact hbp2, ⟨x, by rw [hgoc, h1]; exact hc⟩, ?_⟩
        rw [hgoc, h1]
        have hge : 1 ≤ countCommits (createRepo st path none).2
            (createRepo st path none).1.id info.hash := countCommits_of_some hc
        rw [hgoc] at h
        rw [hcount0] at hge ⊢
        omega
    · -- the path is already registered: the repo row is reused as is
      have hgoc : GetOrCreate st path = (r0, st) := by simp [GetOrCreate, hp]
      rcases hc : GetByRepoAndHash st r0.id info.hash with _ | x
      · have h1 : Ingest st path info =
            (createCommit st r0.id info, ⟨false, ("")⟩) := by
          simp [Ingest, hgoc, hc]
        have hbp2 : GetByPath (Ingest st path info).1 path = some r0 := by
          rw [h1]
          simpa only [GetByPath, createCommit] using hp
        have hc2 : GetByRepoAndHash (Ingest st path info).1 r0.id info.hash =
            some ⟨st.nextCommitId, r0.id, info.hash, info.message, info.author,
              info.branch, info.filesChanged, info.committedAt, false⟩ := by
          rw [h1]
          simp only [GetByRepoAndHash, createCommit, List.find?_append]
          rw [show st.commits.find?
              (fun c => c.repoId == r0.id && c.hash == info.hash) = none from hc]
          simp
        refine ⟨by rw [hgoc]; exact hbp2, ⟨_, by rw [hgoc]; exact hc2⟩, ?_⟩
        rw [hgoc, h1]
        have hz := countCommits_of_none hc
        rw [countCommits_createCommit, hz]
      · have h1 : Ingest st path info =
            (st, ⟨true, ("commit already recorded")⟩) := by
          simp [Ingest, hgoc, hc]
        refine ⟨by rw [hgoc, h1]; exact hp, ⟨x, by rw [hgoc, h1]; exact hc⟩, ?_⟩
        rw [hgoc, h1]
        show countCommits st r0.id info.hash = 1
        have hge : 1 ≤ countCommits st r0.id info.hash := countCommits_of_some hc
        rw [hgoc] at h
        have hle : countCommits st r0.id info.hash ≤ 1 := h
        omega
  obtain ⟨hA, ⟨y, hy⟩, hD⟩ := key
  generalize hst1 : (Ingest st path info).1 = st1 at hA hy hD ⊢
  have hgoc2 : GetOrCreate st1 path = ((GetOrCreate st path).1, st1) := by
    simp [GetOrCreate, hA]
  have h2 : Ingest st1 path info = (st1, ⟨true, ("commit already recorded")⟩) := by
    simp only [Ingest, hgoc2, hy]
  rw [h2]
  exact ⟨hD, rfl, rfl⟩

/-- Witness for C2: ingesting commit hash `abc` twice into an empty store
under the path `/r` leaves one row and a duplicate skip. -/
theorem ingest_idempotent_witness :
    (countCommits (⟨[], [], [], 1, 1, 1⟩ : Store)
        (GetOrCreate ⟨[], [], [], 1, 1, 1⟩ ("/r")).1.id sampleInfo.hash ≤ 1) ∧
    countCommits (Ingest (Ingest ⟨[], [], [], 1, 1, 1⟩ ("/r") sampleInfo).1
        ("/r") sampleInfo).1
      (GetOrCreate ⟨[], [], [], 1, 1, 1⟩ ("/r")).1.id sampleInfo.hash = 1 := by
  refine ⟨by decide, ?_⟩
  exact (ingest_idempotent ⟨[], [], [], 1, 1, 1⟩ ("/r") sampleInfo (by decide)).1

/-! ## Task Derivation pipeline (internal/tui/screens, runProcessing)

`runProcessing` groups the selected commits by owning project (skipping
commits whose repository is missing or has no project), invokes the
external agent once per group, persists one task per parsed line and then
marks the group's commits processed.  The external agent is modelled as an
oracle from project id to its optional stdout (`none` = non-zero exit),
and the fallibility of the task INSERT is modelled by an oracle from the
insert counter to success.  Go iterates the group map in unspecified
order; the model takes the group list explicitly (`buildGroups` produces
the first-seen insertion order, one realizable schedule). -/

/-- Embeds `RepoRepo.GetByID` restricted to the fields `runProcessing`
reads. -/
def GetRepoByID (repos : List Repo) (id : Nat) : Option Repo :=
  repos.find? (fun r => r.id == id)

/-- Appends a commit to its project's group, keeping first-seen order of
projects (the contents of the Go `commitsByProject` map). -/
def addToGroups (gs : List (Nat × List RawCommit)) (pid : Nat) (c : RawCommit) :
    List (Nat × List RawCommit) :=
  match gs with
  | [] => [(pid, [c])]
  | g :: rest =>
    if g.1 = pid then (g.1, g.2 ++ [c]) :: rest
    else g :: addToGroups rest pid c

/-- The grouping loop of `runProcessing`: resolve each commit's repository,
discard commits whose repository is missing or has no project, and group
the remainder by project id. -/
def buildGroups (repos : List Repo) : List RawCommit → List (Nat × List RawCommit) →
    List (Nat × List RawCommit)
  | [], gs => gs
  | c :: cs, gs =>
    match GetRepoByID repos c.repoId with
    | none => buildGroups repos cs gs
    | some r =>
      match r.projectId with
      | none => buildGroups repos cs gs
      | some pid => buildGroups repos cs (addToGroups gs pid c)

/-- Embeds `TaskRepo.Create`: insert a task row. -/
def createTask (st : Store) (projectId : Nat) (description : String)
    (sourceCommits : List Nat) (taskDate : Int) (estimatedHours : ℚ) : Store :=
  { st with
    tasks := st.tasks ++
      [⟨st.nextTaskId, projectId, description, sourceCommits, taskDate, estimatedHours⟩],
    nextTaskId := st.nextTaskId + 1 }

/-- Embeds `CommitRepo.MarkProcessed`: set the processed flag on every
commit row whose id is listed. -/
def MarkProcessed (st : Store) (ids : List Nat) : Store :=
  { st with commits := st.commits.map (fun c =>
      if ids.contains c.id then { c with processed := true } else c) }

/-- The group task date: the maximum committed-at among the group's
commits (the Go zero time is modelled as 0). -/
def taskDateOf (cs : List RawCommit) : Int :=
  cs.foldl (fun d c => if d < c.committedAt then c.committedAt else d) 0

/-- Result of persisting one group's parsed tasks. -/
structure PersistResult where
  store : Store
  nextIdx : Nat
  created : Nat
  ok : Bool

/-- The task-creation loop of one group: insert the parsed tasks one by
one, stopping at the first failed INSERT (`insertOk` gives the fate of
each insert by global counter). -/
def persistTasks (insertOk : Nat → Bool) (pid : Nat) (commitIDs : List Nat)
    (taskDate : Int) : List TaskResult → Store → Nat → PersistResult
  | [], st, n => ⟨st, n, 0, true⟩
  | t :: rest, st, n =>
    if insertOk n then
      let r := persistTasks insertOk pid commitIDs taskDate rest
        (createTask st pid t.description commitIDs taskDate t.estimatedHours) (n + 1)
      ⟨r.store, r.nextIdx, r.created + 1, r.ok⟩
    else ⟨st, n, 0, false⟩

/-- The observable outcome of a processing run (`processCompleteMsg`). -/
structure ProcessOutcome where
  store : Store
  tasksCreated : Nat
  err : Option String

/-- The per-group loop of `runProcessing`: call the agent, persist the
parsed tasks, and mark the group's commits processed only when every task
was persisted; any failure returns immediately with an error. -/
def processGroups (agentOut : Nat → Option String) (insertOk : Nat → Bool) :
    List (Nat × List RawCommit) → Store → Nat → Nat → ProcessOutcome
  | [], st, _n, total => ⟨st, total, none⟩
  | g :: rest, st, n, total =>
    match agentOut g.1 with
    | none => ⟨st, total, some ("failed to process group")⟩
    | some out =>
      let r := persistTasks insertOk g.1 (g.2.map (fun c => c.id)) (taskDateOf g.2)
        (parseResponse out) st n
      if r.ok then
        processGroups agentOut insertOk rest
          (MarkProcessed r.store (g.2.map (fun c => c.id))) r.nextIdx (total + r.created)
      else ⟨r.store, total + r.created, some ("failed to create task")⟩

/-- Embeds `runProcessing` on a selected commit list, processing the
groups in first-seen order. -/
def runProcessing (repos : List Repo) (agentOut : Nat → Option String)
    (insertOk : Nat → Bool) (commitsToProcess : List RawCommit) (st : Store) :
    ProcessOutcome :=
  processGroups agentOut insertOk (buildGroups repos commitsToProcess []) st 0 0

/-- Persisting tasks never touches the commits table. -/
theorem persistTasks_commits (insertOk : Nat → Bool) (pid : Nat) (ids : List Nat)
    (d : Int) (ts : List TaskResult) (st : Store) (n : Nat) :
    (persistTasks insertOk pid ids d ts st n).store.commits = st.commits := by
  induction ts generalizing st n with
  | nil => rfl
  | cons t rest ih =>
    simp only [persistTasks]
    split
    · rw [ih]
      rfl
    · rfl

/-- Claim C4: when the agent answered but persisting one of the group's
tasks fails, the whole run stops with an error before `MarkProcessed`, so
the commit rows (their processed flags included) are exactly as before. -/
theorem group_persist_failure_marks_nothing (agentOut : Nat → Option String)
    (insertOk : Nat → Bool) (pid : Nat) (cs : List RawCommit)
    (rest : List (Nat × List RawCommit)) (st : Store) (n total : Nat) (out : String)
    (hagent : agentOut pid = some out)
    (hfail : (persistTasks insertOk pid (cs.map (fun c => c.id)) (taskDateOf cs)
      (parseResponse out) st n).ok = false) :
    (processGroups agentOut insertOk ((pid, cs) :: rest) st n total).store.commits =
      st.commits ∧
    (processGroups agentOut insertOk ((pid, cs) :: rest) st n total).err =
      some ("failed to create task") := by
  simp only [processGroups, hagent]
  rw [if_neg (by simp [hfail])]
  exact ⟨persistTasks_commits .., rfl⟩

/-- The external-agent oracle of the concrete scenarios: project 1's
agent invocation exits non-zero, project 2's returns one task line. -/
def cexAgent : Nat → Option String :=
  fun pid => if pid = 1 then none else some ("- [1.0h] Did project two work")

/-- A commit of project 2's repository. -/
def cexCommit2 : RawCommit := ⟨2, 2, ("h2"), ("m2"), ("a"), ("main"), [], 2, false⟩

/-- A store holding only project 2's unprocessed commit. -/
def cexStore : Store := ⟨[], [cexCommit2], [], 1, 3, 1⟩

/-- Witness for C4: a group whose single task INSERT fails leaves its
commit unprocessed and surfaces the error. -/
theorem group_persist_failure_marks_nothing_witness :
    cexAgent 2 = some ("- [1.0h] Did project two work") ∧
    (persistTasks (fun _ => false) 2 ([cexCommit2].map (fun c => c.id))
        (taskDateOf [cexCommit2])
        (parseResponse ("- [1.0h] Did project two work")) cexStore 0).ok = false ∧
    (processGroups cexAgent (fun _ => false) [(2, [cexCommit2])] cexStore
        0 0).store.commits = cexStore.commits := by
  refine ⟨by decide, by decide, ?_⟩
  exact (group_persist_failure_marks_nothing cexAgent (fun _ => false) 2 [cexCommit2]
    [] cexStore 0 0 ("- [1.0h] Did project two work") (by decide) (by decide)).1

/-- Members of groups after an insertion come from the old groups or are
the inserted commit. -/
theorem addToGroups_mem (gs : List (Nat × List RawCommit)) (pid : Nat)
    (c0 : RawCommit) :
    ∀ g ∈ addToGroups gs pid c0, ∀ x ∈ g.2, (∃ g0 ∈ gs, x ∈ g0.2) ∨ x = c0 := by
  induction gs with
  | nil =>
    intro g hg x hx
    simp only [addToGroups, List.mem_singleton] at hg
    subst hg
    simp only [List.mem_singleton] at hx
    exact Or.inr hx
  | cons g1 rest ih =>
    intro g hg x hx
    simp only [addToGroups] at hg
    split at hg
    · rcases List.mem_cons.mp hg with h1 | h1
      · subst h1
        rcases List.mem_append.mp hx with h2 | h2
        · exact Or.inl ⟨g1, List.mem_cons_self .., h2⟩
        · exact Or.inr (List.mem_singleton.mp h2)
      · exact Or.inl ⟨g, List.mem_cons_of_mem _ h1, hx⟩
    · rcases List.mem_cons.mp hg with h1 | h1
      · subst h1
        exact Or.inl ⟨g, List.mem_cons_self .., hx⟩
      · rcases ih g h1 x hx with ⟨g0, hg0, hx0⟩ | h2
        · exact Or.inl ⟨g0, List.mem_cons_of_mem _ hg0, hx0⟩
        · exact Or.inr h2

/-- Members of the built groups come from the accumulator or from the
selected commit list. -/
theorem buildGroups_mem (repos : List Repo) (cs : List RawCommit) :
    ∀ gs, ∀ g ∈ buildGroups repos cs gs, ∀ x ∈ g.2,
      (∃ g0 ∈ gs, x ∈ g0.2) ∨ x ∈ cs := by
  induction cs with
  | nil =>
    intro gs g hg x hx
    exact Or.inl ⟨g, hg, hx⟩
  | cons c1 rest ih =>
    intro gs g hg x hx
    simp only [buildGroups] at hg
    rcases hr : GetRepoByID repos c1.repoId with _ | r
    · simp only [hr] at hg
      rcases ih gs g hg x hx with h1 | h1
      · exact Or.inl h1
      · exact Or.inr (List.mem_cons_of_mem _ h1)
    · simp only [hr] at hg
      rcases hpid : r.projectId with _ | pid
      · simp only [hpid] at hg
        rcases ih gs g hg x hx with h1 | h1
        · exact Or.inl h1
        · exact Or.inr (List.mem_cons_of_mem _ h1)
      · simp only [hpid] at hg
        rcases ih (addToGroups gs pid c1) g hg x hx with h1 | h1
        · rcases h1 with ⟨g0, hg0, hx0⟩
          rcases addToGroups_mem gs pid c1 g0 hg0 x hx0 with h2 | h2
          · exact Or.inl h2
          · exact Or.inr (h2 ▸ List.mem_cons_self ..)
        · exact Or.inr (List.mem_cons_of_mem _ h1)

/-- Inserting a different commit does not put `c` into any group. -/
theorem addToGroups_not_mem (gs : List (Nat × List RawCommit)) (pid : Nat)
    (c0 c : RawCommit) (hne : c ≠ c0) (hinv : ∀ g ∈ gs, c ∉ g.2) :
    ∀ g ∈ addToGroups gs pid c0, c ∉ g.2 := by
  intro g hg hc
  rcases addToGroups_mem gs pid c0 g hg c hc with ⟨g0, hg0, hc0⟩ | h
  · exact hinv g0 hg0 hc0
  · exact hne h

/-- The grouping loop never selects a commit whose repository is missing
or has no project. -/
theorem buildGroups_not_mem (repos : List Repo) (c : RawCommit)
    (horph : ∀ r, GetRepoByID repos c.repoId = some r → r.projectId = none)
    (cs : List RawCommit) :
    ∀ gs, (∀ g ∈ gs, c ∉ g.2) → ∀ g ∈ buildGroups repos cs gs, c ∉ g.2 := by
  induction cs with
  | nil => intro gs hinv g hg; exact hinv g hg
  | cons c1 rest ih =>
    intro gs hinv g hg
    simp only [buildGroups] at hg
    rcases hr : GetRepoByID repos c1.repoId with _ | r
    · simp only [hr] at hg; exact ih gs hinv g hg
    · simp only [hr] at hg
      rcases hpid : r.projectId with _ | pid
      · simp only [hpid] at hg; exact ih gs hinv g hg
      · simp only [hpid] at hg
        have hne : c ≠ c1 := by
          intro he
          rw [← he] at hr
          rw [horph r hr] at hpid
          exact Option.noConfusion hpid
        exact ih (addToGroups gs pid c1)
          (addToGroups_not_mem gs pid c1 c hne hinv) g hg

/-- The processed flags of the commit rows carrying a given id. -/
def processedFlags (commits : List RawCommit) (cid : Nat) : List Bool :=
  (commits.filter (fun c => c.id == cid)).map (fun c => c.processed)

/-- Setting the processed flag on listed ids leaves the flags of an
unlisted id unchanged (list form). -/
theorem flags_map_other (ids : List Nat) (cid : Nat) (h : ids.contains cid = false)
    (l : List RawCommit) :
    processedFlags (l.map (fun c =>
      if ids.contains c.id then { c with processed := true } else c)) cid =
      processedFlags l cid := by
  induction l with
  | nil => rfl
  | cons c l ih =>
    simp only [processedFlags, List.map_cons, List.filter_cons] at ih ⊢
    simp only [List.elem_iff] at ih ⊢
    by_cases hc : c.id = cid
    · subst hc
      have hin : c.id ∉ ids := by simpa using h
      simp [hin, ih]
    · by_cases hin : c.id ∈ ids
      · simp [hin, hc, ih]
      · simp [hin, hc, ih]

/-- Marking other ids processed leaves the flags of this id unchanged. -/
theorem markProcessed_flags_other (st : Store) (ids : List Nat) (cid : Nat)
    (h : ids.contains cid = false) :
    processedFlags (MarkProcessed st ids).commits cid =
      processedFlags st.commits cid :=
  flags_map_other ids cid h st.commits

/-- After a run in which no group carries the id, the processed flags of
that id are unchanged. -/
theorem processGroups_flags (agentOut : Nat → Option String) (insertOk : Nat → Bool)
    (groups : List (Nat × List RawCommit)) (st : Store) (n total cid : Nat)
    (h : ∀ g ∈ groups, ((g.2.map (fun c => c.id)).contains cid) = false) :
    processedFlags (processGroups agentOut insertOk groups st n total).store.commits
        cid = processedFlags st.commits cid := by
  induction groups generalizing st n total with
  | nil => rfl
  | cons g rest ih =>
    simp only [processGroups]
    rcases hga : agentOut g.1 with _ | out
    · rfl
    · simp only []
      by_cases hok : (persistTasks insertOk g.1 (g.2.map (fun c => c.id))
          (taskDateOf g.2) (parseResponse out) st n).ok
      · rw [if_pos hok]
        rw [ih _ _ _ (fun g2 hg2 => h g2 (List.mem_cons_of_mem _ hg2))]
        rw [markProcessed_flags_other _ _ _ (h g (List.mem_cons_self ..))]
        unfold processedFlags
        rw [persistTasks_commits]
      · rw [if_neg hok]
        show processedFlags (persistTasks _ _ _ _ _ _ _).store.commits cid = _
        unfold processedFlags
        rw [persistTasks_commits]

/-- Tasks present after persisting a group are either pre-existing or
reference exactly the group's commit ids. -/
theorem persistTasks_tasks (insertOk : Nat → Bool) (pid : Nat) (ids : List Nat)
    (d : Int) (ts : List TaskResult) (st : Store) (n : Nat) :
    ∀ t ∈ (persistTasks insertOk pid ids d ts st n).store.tasks,
      t ∈ st.tasks ∨ t.sourceCommits = ids := by
  induction ts generalizing st n with
  | nil => intro t ht; exact Or.inl ht
  | cons t0 rest ih =>
    intro t ht
    simp only [persistTasks] at ht
    split at ht
    · rcases ih _ _ t ht with h1 | h1
      · simp only [createTask, List.mem_append, List.mem_singleton] at h1
        rcases h1 with h2 | h2
        · exact Or.inl h2
        · exact Or.inr (by rw [h2])
      · exact Or.inr h1
    · exact Or.inl ht

/-- Tasks present after a run in which no group carries the id either
pre-existed or do not reference the id. -/
theorem processGroups_tasks (agentOut : Nat → Option String) (insertOk : Nat → Bool)
    (groups : List (Nat × List RawCommit)) (st : Store) (n total cid : Nat)
    (h : ∀ g ∈ groups, ((g.2.map (fun c => c.id)).contains cid) = false) :
    ∀ t ∈ (processGroups agentOut insertOk groups st n total).store.tasks,
      t ∈ st.tasks ∨ t.sourceCommits.contains cid = false := by
  induction groups generalizing st n total with
  | nil => intro t ht; exact Or.inl ht
  | cons g rest ih =>
    intro t ht
    simp only [processGroups] at ht
    rcases hga : agentOut g.1 with _ | out
    · rw [hga] at ht; exact Or.inl ht
    · rw [hga] at ht
      simp only [] at ht
      by_cases hok : (persistTasks insertOk g.1 (g.2.map (fun c => c.id))
          (taskDateOf g.2) (parseResponse out) st n).ok
      · rw [if_pos hok] at ht
        rcases ih _ _ _ (fun g2 hg2 => h g2 (List.mem_cons_of_mem _ hg2)) t ht with
          h1 | h1
        · have h2 : t ∈ (persistTasks insertOk g.1 (g.2.map (fun c => c.id))
              (taskDateOf g.2) (parseResponse out) st n).store.tasks := h1
          rcases persistTasks_tasks _ _ _ _ _ _ _ t h2 with h3 | h3
          · exact Or.inl h3
          · exact Or.inr (by rw [h3]; exact h g (List.mem_cons_self ..))
        · exact Or.inr h1
      · rw [if_neg hok] at ht
        rcases persistTasks_tasks _ _ _ _ _ _ _ t ht with h3 | h3
        · exact Or.inl h3
        · exact Or.inr (by rw [h3]; exact h g (List.mem_cons_self ..))

/-- Claim C5: a commit whose owning repository is missing or has no
project is never placed into a derivation group; consequently, whatever
the agent and the insert oracle do, its processed flag is unchanged by the
run and no newly created task references its id (pre-existing tasks
aside). -/
theorem orphan_commits_excluded (repos : List Repo) (cs : List RawCommit)
    (c : RawCommit) (agentOut : Nat → Option String) (insertOk : Nat → Bool)
    (st : Store) (_hc : c ∈ cs)
    (horph : ∀ r, GetRepoByID repos c.repoId = some r → r.projectId = none)
    (huniq : ∀ c2 ∈ cs, c2.id = c.id → c2 = c) :
    (∀ g ∈ buildGroups repos cs [], c ∉ g.2) ∧
    processedFlags (runProcessing repos agentOut insertOk cs st).store.commits c.id =
      processedFlags st.commits c.id ∧
    (∀ t ∈ (runProcessing repos agentOut insertOk cs st).store.tasks,
      t ∈ st.tasks ∨ t.sourceCommits.contains c.id = false) := by
  have hng : ∀ g ∈ buildGroups repos cs [], c ∉ g.2 :=
    buildGroups_not_mem repos c horph cs [] (by intro g hg; cases hg)
  have hid : ∀ g ∈ buildGroups repos cs [],
      ((g.2.map (fun c2 => c2.id)).contains c.id) = false := by
    intro g hg
    by_contra hcon
    rw [Bool.not_eq_false] at hcon
    have hmem : c.id ∈ g.2.map (fun c2 => c2.id) := by simpa using hcon
    obtain ⟨x, hx, hxid⟩ := List.mem_map.mp hmem
    have hxcs : x ∈ cs := by
      rcases buildGroups_mem repos cs [] g hg x hx with ⟨g0, hg0, _⟩ | h1
      · cases hg0
      · exact h1
    have hxc : x = c := huniq x hxcs hxid
    exact hng g hg (hxc ▸ hx)
  exact ⟨hng, processGroups_flags _ _ _ _ _ _ _ hid, processGroups_tasks _ _ _ _ _ _ _ hid⟩

/-- An orphan repository and its commit, plus a project-owned repository
and its commit, for the concrete orphan-exclusion scenario. -/
def orphanRepos : List Repo := [⟨1, ("/r1"), none, ("")⟩, ⟨2, ("/r2"), some 2, ("p2")⟩]

/-- The commit owned by the orphan repository. -/
def orphanCommit : RawCommit := ⟨1, 1, ("h1"), ("m1"), ("a"), ("main"), [], 1, false⟩

/-- The store of the orphan-exclusion scenario. -/
def orphanStore : Store := ⟨orphanRepos, [orphanCommit, cexCommit2], [], 3, 3, 1⟩

/-- Witness for C5: in the concrete scenario the orphan commit is in no
group and its flag survives the run unchanged. -/
theorem orphan_commits_excluded_witness :
    orphanCommit ∈ [orphanCommit, cexCommit2] ∧
    processedFlags (runProcessing orphanRepos cexAgent (fun _ => true)
        [orphanCommit, cexCommit2] orphanStore).store.commits orphanCommit.id =
      processedFlags orphanStore.commits orphanCommit.id := by
  refine ⟨List.mem_cons_self .., ?_⟩
  exact (orphan_commits_excluded orphanRepos [orphanCommit, cexCommit2] orphanCommit
    cexAgent (fun _ => true) orphanStore (List.mem_cons_self ..)
    (by decide) (by decide)).2.1

/-- The repositories of the two-project failure scenario. -/
def cexRepos : List Repo := [⟨1, ("/r1"), some 1, ("p1")⟩, ⟨2, ("/r2"), some 2, ("p2")⟩]

/-- Project 1's commit in the failure scenario. -/
def cexCommit1 : RawCommit := ⟨1, 1, ("h1"), ("m1"), ("a"), ("main"), [], 1, false⟩

/-- The store of the two-project failure scenario. -/
def cexStore2 : Store := ⟨cexRepos, [cexCommit1, cexCommit2], [], 3, 3, 1⟩

/-- Counterexample to C8 as stated: with project 1's agent failing and
project 2's succeeding, the run over both groups aborts at project 1, so
project 2's commit stays unprocessed and its task is never created —
whereas the run without the failing group processes project 2 fully. -/
theorem runProcessing_failure_blocks_following_group :
    (runProcessing cexRepos cexAgent (fun _ => true)
        [cexCommit1, cexCommit2] cexStore2).err =
      some ("failed to process group") ∧
    processedFlags (runProcessing cexRepos cexAgent (fun _ => true)
        [cexCommit1, cexCommit2] cexStore2).store.commits 2 = [false] ∧
    ((runProcessing cexRepos cexAgent (fun _ => true)
        [cexCommit1, cexCommit2] cexStore2).store.tasks).length = 0 ∧
    processedFlags (runProcessing cexRepos cexAgent (fun _ => true)
        [cexCommit2] cexStore2).store.commits 2 = [true] ∧
    ((runProcessing cexRepos cexAgent (fun _ => true)
        [cexCommit2] cexStore2).store.tasks).length = 1 := by
  decide

/-- Claim C8 (amended): group processing aborts at the first agent
failure: the groups processed before it keep their effect exactly as if
the failing group were at the end of the schedule, the run reports the
failing group's error, and the groups scheduled afterwards contribute
nothing. -/
theorem processGroups_abort_on_agent_failure (agentOut : Nat → Option String)
    (insertOk : Nat → Bool) (pre : List (Nat × List RawCommit))
    (bad : Nat × List RawCommit) (post : List (Nat × List RawCommit))
    (st : Store) (n total : Nat)
    (hfail : agentOut bad.1 = none)
    (hok : (processGroups agentOut insertOk pre st n total).err = none) :
    processGroups agentOut insertOk (pre ++ bad :: post) st n total =
      ⟨(processGroups agentOut insertOk pre st n total).store,
       (processGroups agentOut insertOk pre st n total).tasksCreated,
       some ("failed to process group")⟩ := by
  induction pre generalizing st n total with
  | nil =>
    simp only [List.nil_append, processGroups, hfail]
  | cons g pre ih =>
    rcases hga : agentOut g.1 with _ | out
    · have he : (processGroups agentOut insertOk (g :: pre) st n total).err =
          some ("failed to process group") := by
        simp only [processGroups, hga]
      rw [he] at hok
      exact absurd hok (by simp)
    · by_cases hokk : (persistTasks insertOk g.1 (g.2.map (fun c => c.id))
          (taskDateOf g.2) (parseResponse out) st n).ok
      · have hstep : ∀ rest2 : List (Nat × List RawCommit),
            processGroups agentOut insertOk (g :: rest2) st n total =
              processGroups agentOut insertOk rest2
                (MarkProcessed (persistTasks insertOk g.1 (g.2.map (fun c => c.id))
                  (taskDateOf g.2) (parseResponse out) st n).store
                  (g.2.map (fun c => c.id)))
                (persistTasks insertOk g.1 (g.2.map (fun c => c.id))
                  (taskDateOf g.2) (parseResponse out) st n).nextIdx
                (total + (persistTasks insertOk g.1 (g.2.map (fun c => c.id))
                  (taskDateOf g.2) (parseResponse out) st n).created) := by
          intro rest2
          simp only [processGroups, hga]
          rw [if_pos hokk]
        rw [hstep pre] at hok
        rw [List.cons_append, hstep (pre ++ bad :: post), hstep pre]
        exact ih _ _ _ hok
      · have he : (processGroups agentOut insertOk (g :: pre) st n total).err =
            some ("failed to create task") := by
          simp only [processGroups, hga]
          rw [if_neg hokk]
        rw [he] at hok
        exact absurd hok (by simp)

/-- Witness for the amended C8: with the successful project 2 group
scheduled before the failing project 1 group, the run keeps project 2's
effect and reports project 1's error. -/
theorem processGroups_abort_on_agent_failure_witness :
    cexAgent (1, [cexCommit1]).1 = none ∧
    (processGroups cexAgent (fun _ => true) [(2, [cexCommit2])] cexStore2 0 0).err =
      none ∧
    processGroups cexAgent (fun _ => true)
        ([(2, [cexCommit2])] ++ (1, [cexCommit1]) :: []) cexStore2 0 0 =
      ⟨(processGroups cexAgent (fun _ => true) [(2, [cexCommit2])] cexStore2 0 0).store,
       (processGroups cexAgent (fun _ => true)
         [(2, [cexCommit2])] cexStore2 0 0).tasksCreated,
       some ("failed to process group")⟩ := by
  refine ⟨by decide, by decide, ?_⟩
  exact processGroups_abort_on_agent_failure cexAgent (fun _ => true)
    [(2, [cexCommit2])] (1, [cexCommit1]) [] cexStore2 0 0 (by decide) (by decide)

/-! ## Hook installer (hooks package: Install, installHook, Uninstall)

The managed hook directory is modelled as an association list from file
name to file content, and the global `core.hooksPath` setting as an
optional string (`none` = unset).  Directory creation is a no-op in the
model; the old hook directory consulted by the migration branch is passed
in as its file listing. -/

/-- The managed hook directory plus the global hook-path setting. -/
structure HookFS where
  files : List (String × String)
  hooksPath : Option String
  deriving DecidableEq

/-- Reads a file of the hook directory (`os.ReadFile`). -/
def fsRead (fs : List (String × String)) (name : String) : Option String :=
  (fs.find? (fun e => e.1 == name)).map (fun e => e.2)

/-- Writes a file, overwriting an existing entry (`os.WriteFile`). -/
def fsWrite (fs : List (String × String)) (name content : String) :
    List (String × String) :=
  if fs.any (fun e => e.1 == name) then
    fs.map (fun e => if e.1 == name then (e.1, content) else e)
  else fs ++ [(name, content)]

/-- Removes a file (`os.Remove`). -/
def fsRemove (fs : List (String × String)) (name : String) :
    List (String × String) :=
  fs.filter (fun e => !(e.1 == name))

/-- Renames a file, replacing the target (`os.Rename`). -/
def fsRename (fs : List (String × String)) (old new : String) :
    List (String × String) :=
  match fsRead fs old with
  | none => fs
  | some c => fsWrite (fsRemove fs old) new c

/-- Substring test (`strings.Contains`). -/
def containsSub (s pat : String) : Bool :=
  s.toList.tails.any (fun t => pat.toList.isPrefixOf t)

/-- A script is managed when it carries the embedded marker string. -/
def hasMarker (s : String) : Bool := containsSub s ("Anchorman")

/-- The managed post-commit script written by `Install`. -/
def postCommitHook : String :=
  "#!/bin/bash\n# Anchorman post-commit hook\n# Chain existing hook if present\nif [ -x \"$0.legacy\" ]; then\n    \"$0.legacy\" \"$@\"\nfi\n# Ingest commit (silent, non-blocking)\nanchorman ingest 2>/dev/null &\n"

/-- The managed post-merge script written by `Install`. -/
def postMergeHook : String :=
  "#!/bin/bash\n# Anchorman post-merge hook\n# Chain existing hook if present\nif [ -x \"$0.legacy\" ]; then\n    \"$0.legacy\" \"$@\"\nfi\n# Ingest commit (silent, non-blocking)\nanchorman ingest 2>/dev/null &\n"

/-- Embeds `installHook`: back a non-managed occupant up under the
`.legacy` suffix, then write the managed script. -/
def installHook (fs : List (String × String)) (name content : String) :
    List (String × String) :=
  let fs1 :=
    match fsRead fs name with
    | some existing =>
      if !(hasMarker existing) then fsRename fs name (name ++ (".legacy")) else fs
    | none => fs
  fsWrite fs1 name content

/-- Embeds `migrateExistingHooks`: copy each file of the previously
configured directory into the managed directory under `.legacy`. -/
def migrateHooks (oldFiles fs : List (String × String)) : List (String × String) :=
  oldFiles.foldl (fun acc e => fsWrite acc (e.1 ++ (".legacy")) e.2) fs

/-- Embeds `hooks.Install`: migrate a differing pre-existing hook path,
install both managed trigger scripts, and point the global hook-path
setting at the managed directory. -/
def Install (st : HookFS) (dir : String) (oldFiles : List (String × String)) :
    HookFS :=
  let fs0 :=
    match st.hooksPath with
    | some p => if p ≠ ("") ∧ p ≠ dir then migrateHooks oldFiles st.files else st.files
    | none => st.files
  let fs1 := installHook fs0 ("post-commit") postCommitHook
  let fs2 := installHook fs1 ("post-merge") postMergeHook
  ⟨fs2, some dir⟩

/-- The per-trigger removal step of `hooks.Uninstall`: remove a managed
occupant and restore a `.legacy` sibling when present. -/
def uninstallHook (fs : List (String × String)) (name : String) :
    List (String × String) :=
  match fsRead fs name with
  | some content =>
    if hasMarker content then
      let fs1 := fsRemove fs name
      match fsRead fs1 (name ++ (".legacy")) with
      | some _ => fsRename fs1 (name ++ (".legacy")) name
      | none => fs1
    else fs
  | none => fs

/-- Embeds `hooks.Uninstall`: remove both managed scripts (restoring any
legacy siblings) and clear the hook-path setting only when the directory
was left empty. -/
def Uninstall (st : HookFS) : HookFS :=
  let fs1 := uninstallHook st.files ("post-commit")
  let fs2 := uninstallHook fs1 ("post-merge")
  if fs2 = [] then ⟨[], none⟩ else ⟨fs2, st.hooksPath⟩

/-- A foreign post-commit script without the managed marker. -/
def foreignScript : String := "#!/bin/sh\necho custom hook\n"

/-- Counterexample to C7 as stated: installing over a foreign post-commit
script and uninstalling restores the script byte-identically and leaves no
managed file behind, yet the hook-path setting is NOT cleared, because the
restored foreign script keeps the directory non-empty. -/
theorem hook_uninstall_keeps_hooksPath :
    fsRead (Uninstall (Install ⟨[(("post-commit"), foreignScript)], none⟩
        ("/h") [])).files ("post-commit") = some foreignScript ∧
    (Uninstall (Install ⟨[(("post-commit"), foreignScript)], none⟩
        ("/h") [])).files.all (fun e => !(hasMarker e.2)) = true ∧
    (Uninstall (Install ⟨[(("post-commit"), foreignScript)], none⟩
        ("/h") [])).hooksPath = some ("/h") := by
  decide

/-- Claim C7 (amended): for any foreign, non-managed pre-existing
post-commit script, install followed by uninstall restores the directory
to exactly its pre-install single-file content (the foreign script
byte-identical under its original name), while the hook-path setting
remains pointing at the managed directory, since the restored foreign
script keeps the directory non-empty and the setting is cleared only for
an empty directory. -/
theorem hook_roundtrip_restores_foreign (foreign dir : String)
    (hnm : hasMarker foreign = false) :
    (Uninstall (Install ⟨[(("post-commit"), foreign)], none⟩ dir [])).files =
      [(("post-commit"), foreign)] ∧
    (Uninstall (Install ⟨[(("post-commit"), foreign)], none⟩ dir [])).hooksPath =
      some dir := by
  have hm1 : hasMarker postCommitHook = true := by decide
  have hm2 : hasMarker postMergeHook = true := by decide
  constructor <;>
    simp +decide [Uninstall, Install, installHook, uninstallHook, fsRead, fsWrite,
      fsRemove, fsRename, migrateHooks, hnm, hm1, hm2]

/-- Witness for the amended C7: the concrete foreign script round-trips
and the setting still points at the managed directory. -/
theorem hook_roundtrip_restores_foreign_witness :
    hasMarker foreignScript = false ∧
    (Uninstall (Install ⟨[(("post-commit"), foreignScript)], none⟩
        ("/hooks") [])).files = [(("post-commit"), foreignScript)] ∧
    (Uninstall (Install ⟨[(("post-commit"), foreignScript)], none⟩
        ("/hooks") [])).hooksPath = some ("/hooks") := by
  refine ⟨by decide, ?_, ?_⟩
  · exact (hook_roundtrip_restores_foreign foreignScript ("/hooks") (by decide)).1
  · exact (hook_roundtrip_restores_foreign foreignScript ("/hooks") (by decide)).2

end Anchorman
